import Mathlib

/-!
Verification of the SQL statement splitter `split_sql_statements`
from `scripts/apply_supabase_migration.py`.

The Python function performs a single left-to-right scan over the script,
tracking the lexical context (single-quoted string, double-quoted identifier,
line comment, block comment, dollar-quoted body) in five boolean flags plus an
optional dollar tag, and flushes the accumulation buffer (trimmed, dropped if
empty) at every semicolon encountered outside all of those contexts.

The embedding below models one iteration of the `while` loop as a pure
`step` function (consumed-character count, appended characters, next state,
flush flag) and the loop itself as a fuel-indexed recursion over the
remaining character list; `fuel = input.length` always suffices because every
iteration consumes at least one character.  Strings are modelled as
`List Char`; Python's `str.strip` is modelled on ASCII whitespace and
`str.isalnum` as ASCII alphanumeric (the scripts in the repository are ASCII).
-/

namespace SqlSplit

/-- The whitespace characters removed by Python's `str.strip` (ASCII range). -/
def isPySpace (c : Char) : Bool :=
  c = ' ' || c = '\t' || c = '\n' || c = '\r' || c = '\x0b' || c = '\x0c'

/-- Python's `str.strip`: drop leading and trailing whitespace. -/
def pyStrip (l : List Char) : List Char :=
  ((l.dropWhile isPySpace).reverse.dropWhile isPySpace).reverse

/-- Characters allowed inside a dollar-quote tag: `sql[j].isalnum() or sql[j] == "_"`
(line 85 of the source). -/
def isTagChar (c : Char) : Bool :=
  c.isAlphanum || c = '_'

/-- The scanner's mutable context flags (source lines 17-23). -/
structure St where
  in_single : Bool
  in_double : Bool
  in_line_comment : Bool
  in_block_comment : Bool
  in_dollar : Bool
  dollar_tag : Option (List Char)
deriving DecidableEq, Repr

/-- All flags cleared, no tag: the state at the start of the scan. -/
def initSt : St := ⟨false, false, false, false, false, none⟩

/-- The effect of one iteration of the `while` loop: how many characters are
consumed (`k ≥ 1`, including the current one), which characters are appended
to the buffer, the next state, and whether the buffer is flushed as a
statement. -/
structure Step where
  k : Nat
  app : List Char
  st : St
  flush : Bool
deriving DecidableEq, Repr

/-- One iteration of the scan loop (source lines 27-108), for current
character `c` and remaining input `rest` (`nxt = rest.head?`).  The branch
order mirrors the source: line comment (31-36), block comment (38-46),
comment openers (48-60), single quote (62-74), double quote (76-80),
dollar-quote token (82-97), top-level semicolon (99-105), default (107-108). -/
def step (st : St) (c : Char) (rest : List Char) : Step :=
  if st.in_line_comment = true then
    if c = '\n' then ⟨1, [c], { st with in_line_comment := false }, false⟩
    else ⟨1, [c], st, false⟩
  else if st.in_block_comment = true then
    if c = '*' ∧ rest.head? = some '/' then
      ⟨2, [c, '/'], { st with in_block_comment := false }, false⟩
    else ⟨1, [c], st, false⟩
  else if st.in_single = false ∧ st.in_double = false ∧ st.in_dollar = false
      ∧ c = '-' ∧ rest.head? = some '-' then
    ⟨2, [c, '-'], { st with in_line_comment := true }, false⟩
  else if st.in_single = false ∧ st.in_double = false ∧ st.in_dollar = false
      ∧ c = '/' ∧ rest.head? = some '*' then
    ⟨2, [c, '*'], { st with in_block_comment := true }, false⟩
  else if st.in_double = false ∧ st.in_dollar = false ∧ c = '\'' then
    if st.in_single = true then
      if rest.head? = some '\'' then ⟨2, [c, '\''], st, false⟩
      else ⟨1, [c], { st with in_single := false }, false⟩
    else ⟨1, [c], { st with in_single := true }, false⟩
  else if st.in_single = false ∧ st.in_dollar = false ∧ c = '"' then
    ⟨1, [c], { st with in_double := !st.in_double }, false⟩
  else if st.in_single = false ∧ st.in_double = false ∧ c = '$'
      ∧ (rest.drop (rest.takeWhile isTagChar).length).head? = some '$' then
    if st.in_dollar = true ∧ st.dollar_tag = some ('$' :: (rest.takeWhile isTagChar ++ ['$'])) then
      ⟨(rest.takeWhile isTagChar).length + 2, '$' :: (rest.takeWhile isTagChar ++ ['$']),
        { st with in_dollar := false, dollar_tag := none }, false⟩
    else if st.in_dollar = false then
      ⟨(rest.takeWhile isTagChar).length + 2, '$' :: (rest.takeWhile isTagChar ++ ['$']),
        { st with in_dollar := true,
                  dollar_tag := some ('$' :: (rest.takeWhile isTagChar ++ ['$'])) }, false⟩
    else
      ⟨(rest.takeWhile isTagChar).length + 2, '$' :: (rest.takeWhile isTagChar ++ ['$']), st, false⟩
  else if st.in_single = false ∧ st.in_double = false ∧ st.in_dollar = false ∧ c = ';' then
    ⟨1, [], st, true⟩
  else
    ⟨1, [c], st, false⟩

/-- The scan loop (source lines 27-114): thread state, buffer and the list of
already-emitted statements through repeated `step`s; at end of input flush the
trimmed buffer if non-empty (lines 110-112).  `fuel` bounds the number of
iterations; `fuel = cs.length` suffices since each step consumes at least one
character. -/
def pyLoop (fuel : Nat) (cs : List Char) (st : St) (buf : List Char)
    (acc : List (List Char)) : List (List Char) :=
  match cs, fuel with
  | [], _ =>
      if pyStrip buf = [] then acc else acc ++ [pyStrip buf]
  | _ :: _, 0 => acc
  | c :: rest, Nat.succ f =>
      let r := step st c rest
      if r.flush then
        pyLoop f (rest.drop (r.k - 1)) r.st []
          (if pyStrip buf = [] then acc else acc ++ [pyStrip buf])
      else
        pyLoop f (rest.drop (r.k - 1)) r.st (buf ++ r.app) acc

/-- `split_sql_statements` on a character list. -/
def splitCore (cs : List Char) : List (List Char) :=
  pyLoop cs.length cs initSt [] []

/-- The source function `split_sql_statements` (lines 13-114). -/
def split_sql_statements (sql : String) : List String :=
  (splitCore sql.data).map (fun l => l.asString)

/-- Instrumented run of the same scan: returns the raw (untrimmed, unfiltered)
chunks flushed at top-level semicolons, the final buffer content, and the final
state.  Used to express "top-level semicolon" and "chunk" independently of the
trim/filter step. -/
def scanRun (fuel : Nat) (cs : List Char) (st : St) (buf : List Char) :
    List (List Char) × List Char × St :=
  match cs, fuel with
  | [], _ => ([], buf, st)
  | _ :: _, 0 => ([], buf, st)
  | c :: rest, Nat.succ f =>
      let r := step st c rest
      if r.flush then
        let t := scanRun f (rest.drop (r.k - 1)) r.st []
        (buf :: t.1, t.2.1, t.2.2)
      else
        scanRun f (rest.drop (r.k - 1)) r.st (buf ++ r.app)

/-- The raw chunks of a script: the text between consecutive top-level
semicolons (and after the last one), before trimming and dropping empties. -/
def rawChunks (cs : List Char) : List (List Char) :=
  (scanRun cs.length cs initSt []).1 ++ [(scanRun cs.length cs initSt []).2.1]

/-- The number of top-level semicolons of a script: semicolons reached with
all five context flags clear, i.e. the flush events of the scan. -/
def topSemiCount (cs : List Char) : Nat :=
  (scanRun cs.length cs initSt []).1.length

/-- Drop the empty lists (the scanner drops statements that trim to nothing). -/
def dropEmpties : List (List Char) → List (List Char)
  | [] => []
  | x :: xs => if x = [] then dropEmpties xs else x :: dropEmpties xs

example : splitCore "a;b".data = ["a".data, "b".data] := by decide

example : split_sql_statements "SELECT 1; SELECT 2;" = ["SELECT 1", "SELECT 2"] := by
  decide

example : split_sql_statements "SELECT 'a;b';" = ["SELECT 'a;b'"] := by decide

example : splitCore "$a$$b$a$;x".data = ["$a$$b$a$;x".data] := by decide

/-! ### Basic facts about `step` -/

lemma head?_some_length {l : List Char} {x : Char} (h : l.head? = some x) :
    1 ≤ l.length := by
  cases l <;> simp_all

lemma dropHead_some_lt {l : List Char} {n : Nat} {x : Char}
    (h : (l.drop n).head? = some x) : n < l.length := by
  rcases Nat.lt_or_ge n l.length with h' | h'
  · exact h'
  · rw [List.drop_eq_nil_of_le h'] at h; simp at h

lemma getElem?_some_lt {l : List Char} {n : Nat} {x : Char}
    (h : l[n]? = some x) : n < l.length := by
  rcases Nat.lt_or_ge n l.length with h' | h'
  · exact h'
  · rw [List.getElem?_eq_none h'] at h; simp at h

lemma take_len_takeWhile (p : Char → Bool) (l : List Char) :
    l.take (l.takeWhile p).length = l.takeWhile p := by
  induction l with
  | nil => simp
  | cons a l ih =>
      by_cases h : p a
      · simp [List.takeWhile_cons, h, ih]
      · simp [List.takeWhile_cons, h]

/-- Every loop iteration consumes at least one character. -/
lemma step_k_pos (st : St) (c : Char) (rest : List Char) :
    1 ≤ (step st c rest).k := by
  unfold step
  split_ifs <;> simp

/-- A loop iteration never consumes more characters than are available. -/
lemma step_k_le (st : St) (c : Char) (rest : List Char) :
    (step st c rest).k - 1 ≤ rest.length := by
  unfold step
  split_ifs <;> dsimp only
  all_goals
    first
      | omega
      | (cases rest with
          | nil => simp_all
          | cons a t => simp)
      | (exact dropHead_some_lt (by tauto))

/-- In a non-flushing iteration the appended characters are exactly the
consumed ones: the current character followed by the next `k - 1`. -/
lemma step_app_or (st : St) (c : Char) (rest : List Char) :
    (step st c rest).flush = true
      ∨ (step st c rest).app = c :: rest.take ((step st c rest).k - 1) := by
  unfold step
  split_ifs <;> dsimp only
  all_goals
    first
      | (left; rfl)
      | (right; rfl)
      | (right
         cases rest with
          | nil => simp_all
          | cons a t => simp_all)
      | (right
         obtain ⟨-, -, hc, hdol⟩ := ‹_ ∧ _ ∧ _ ∧ _›
         subst hc
         rw [show (rest.takeWhile isTagChar).length + 2 - 1
               = (rest.takeWhile isTagChar).length + 1 from rfl,
             List.take_succ, take_len_takeWhile, ← List.head?_drop, hdol]
         rfl)

/-- A flushing iteration consumes exactly the semicolon, appends nothing and
leaves the state unchanged; it happens only at a semicolon with all five
context flags clear. -/
lemma step_flush_or (st : St) (c : Char) (rest : List Char) :
    (step st c rest).flush = false
      ∨ (step st c rest = ⟨1, [], st, true⟩
          ∧ st.in_line_comment = false ∧ st.in_block_comment = false
          ∧ st.in_single = false ∧ st.in_double = false ∧ st.in_dollar = false
          ∧ c = ';') := by
  unfold step
  split_ifs
  all_goals first
    | (left; rfl)
    | (right; simp_all)

lemma step_consumed {st : St} {c : Char} {rest : List Char}
    (h : (step st c rest).flush = false) :
    (step st c rest).app = c :: rest.take ((step st c rest).k - 1) := by
  rcases step_app_or st c rest with h' | h'
  · rw [h'] at h; exact Bool.noConfusion h
  · exact h'

lemma step_flush_spec {st : St} {c : Char} {rest : List Char}
    (h : (step st c rest).flush = true) :
    step st c rest = ⟨1, [], st, true⟩
      ∧ st.in_line_comment = false ∧ st.in_block_comment = false
      ∧ st.in_single = false ∧ st.in_double = false ∧ st.in_dollar = false
      ∧ c = ';' := by
  rcases step_flush_or st c rest with h' | h'
  · rw [h'] at h; exact Bool.noConfusion h
  · exact h'

/-- The scan flushes exactly at semicolons reached with all context flags
clear (a "top-level semicolon"). -/
lemma step_flush_iff (st : St) (c : Char) (rest : List Char) :
    (step st c rest).flush = true ↔
      st.in_line_comment = false ∧ st.in_block_comment = false
        ∧ st.in_single = false ∧ st.in_double = false ∧ st.in_dollar = false
        ∧ c = ';' := by
  constructor
  · intro h
    exact (step_flush_spec h).2
  · intro ⟨h1, h2, h3, h4, h5, h6⟩
    unfold step
    split_ifs <;> simp_all

/-! ### Unfolding equations and fuel irrelevance for the drivers -/

lemma pyLoop_nil (fuel : Nat) (st : St) (buf : List Char) (acc : List (List Char)) :
    pyLoop fuel [] st buf acc
      = if pyStrip buf = [] then acc else acc ++ [pyStrip buf] := by
  cases fuel <;> rfl

lemma pyLoop_cons (f : Nat) (c : Char) (rest : List Char) (st : St)
    (buf : List Char) (acc : List (List Char)) :
    pyLoop (f + 1) (c :: rest) st buf acc
      = if (step st c rest).flush then
          pyLoop f (rest.drop ((step st c rest).k - 1)) (step st c rest).st []
            (if pyStrip buf = [] then acc else acc ++ [pyStrip buf])
        else
          pyLoop f (rest.drop ((step st c rest).k - 1)) (step st c rest).st
            (buf ++ (step st c rest).app) acc := rfl

lemma scanRun_nil (fuel : Nat) (st : St) (buf : List Char) :
    scanRun fuel [] st buf = ([], buf, st) := by
  cases fuel <;> rfl

lemma scanRun_cons (f : Nat) (c : Char) (rest : List Char) (st : St)
    (buf : List Char) :
    scanRun (f + 1) (c :: rest) st buf
      = if (step st c rest).flush then
          (buf :: (scanRun f (rest.drop ((step st c rest).k - 1)) (step st c rest).st []).1,
           (scanRun f (rest.drop ((step st c rest).k - 1)) (step st c rest).st []).2.1,
           (scanRun f (rest.drop ((step st c rest).k - 1)) (step st c rest).st []).2.2)
        else
          scanRun f (rest.drop ((step st c rest).k - 1)) (step st c rest).st
            (buf ++ (step st c rest).app) := rfl

lemma drop_len_le (rest : List Char) (n f : Nat) (h : rest.length + 1 ≤ f + 1) :
    (rest.drop n).length ≤ f := by
  rw [List.length_drop]; omega

lemma pyLoop_cons_flush {st : St} {c : Char} {rest : List Char}
    (f : Nat) (buf : List Char) (acc : List (List Char))
    (hf : (step st c rest).flush = true) :
    pyLoop (f + 1) (c :: rest) st buf acc
      = pyLoop f (rest.drop ((step st c rest).k - 1)) (step st c rest).st []
          (if pyStrip buf = [] then acc else acc ++ [pyStrip buf]) := by
  rw [pyLoop_cons, if_pos hf]

lemma pyLoop_cons_no {st : St} {c : Char} {rest : List Char}
    (f : Nat) (buf : List Char) (acc : List (List Char))
    (hf : (step st c rest).flush = false) :
    pyLoop (f + 1) (c :: rest) st buf acc
      = pyLoop f (rest.drop ((step st c rest).k - 1)) (step st c rest).st
          (buf ++ (step st c rest).app) acc := by
  rw [pyLoop_cons, if_neg]
  simp [hf]

lemma scanRun_cons_flush {st : St} {c : Char} {rest : List Char}
    (f : Nat) (buf : List Char)
    (hf : (step st c rest).flush = true) :
    scanRun (f + 1) (c :: rest) st buf
      = (buf :: (scanRun f (rest.drop ((step st c rest).k - 1)) (step st c rest).st []).1,
         (scanRun f (rest.drop ((step st c rest).k - 1)) (step st c rest).st []).2.1,
         (scanRun f (rest.drop ((step st c rest).k - 1)) (step st c rest).st []).2.2) := by
  rw [scanRun_cons, if_pos hf]

lemma scanRun_cons_no {st : St} {c : Char} {rest : List Char}
    (f : Nat) (buf : List Char)
    (hf : (step st c rest).flush = false) :
    scanRun (f + 1) (c :: rest) st buf
      = scanRun f (rest.drop ((step st c rest).k - 1)) (step st c rest).st
          (buf ++ (step st c rest).app) := by
  rw [scanRun_cons, if_neg]
  simp [hf]

/-- Any fuel of at least the input length computes the same scan. -/
lemma scanRun_fuel : ∀ (f g : Nat) (cs : List Char) (st : St) (buf : List Char),
    cs.length ≤ f → cs.length ≤ g → scanRun f cs st buf = scanRun g cs st buf := by
  intro f
  induction f with
  | zero =>
      intro g cs st buf h1 _
      cases cs with
      | nil => rw [scanRun_nil, scanRun_nil]
      | cons c rest => simp at h1
  | succ f ih =>
      intro g cs st buf h1 h2
      cases cs with
      | nil => rw [scanRun_nil, scanRun_nil]
      | cons c rest =>
          cases g with
          | zero => simp at h2
          | succ g' =>
              rw [scanRun_cons, scanRun_cons]
              have h1' : rest.length + 1 ≤ f + 1 := by simpa using h1
              have h2' : rest.length + 1 ≤ g' + 1 := by simpa using h2
              have hlen := drop_len_le rest ((step st c rest).k - 1) f h1'
              have hlen' := drop_len_le rest ((step st c rest).k - 1) g' h2'
              have hd : (rest.drop ((step st c rest).k - 1)).length
                  ≤ (rest.drop ((step st c rest).k - 1)).length := le_refl _
              rw [ih g' (rest.drop ((step st c rest).k - 1)) (step st c rest).st [] hlen hlen',
                  ih g' (rest.drop ((step st c rest).k - 1)) (step st c rest).st
                    (buf ++ (step st c rest).app) hlen hlen']

@[simp] lemma dropEmpties_nil : dropEmpties [] = [] := rfl

lemma dropEmpties_cons (x : List Char) (xs : List (List Char)) :
    dropEmpties (x :: xs)
      = if x = [] then dropEmpties xs else x :: dropEmpties xs := rfl

/-- The source loop equals the instrumented scan followed by trimming each raw
chunk and dropping the empty ones. -/
lemma pyLoop_scanRun : ∀ (fuel : Nat) (cs : List Char) (st : St) (buf : List Char)
    (acc : List (List Char)), cs.length ≤ fuel →
    pyLoop fuel cs st buf acc
      = acc ++ dropEmpties
          (((scanRun fuel cs st buf).1 ++ [(scanRun fuel cs st buf).2.1]).map pyStrip) := by
  intro fuel
  induction fuel with
  | zero =>
      intro cs st buf acc h
      cases cs with
      | nil =>
          rw [pyLoop_nil, scanRun_nil]
          simp only [List.nil_append, List.map_cons, List.map_nil, dropEmpties_cons,
            dropEmpties_nil]
          split_ifs <;> simp
      | cons c rest => simp at h
  | succ f ih =>
      intro cs st buf acc h
      cases cs with
      | nil =>
          rw [pyLoop_nil, scanRun_nil]
          simp only [List.nil_append, List.map_cons, List.map_nil, dropEmpties_cons,
            dropEmpties_nil]
          split_ifs <;> simp
      | cons c rest =>
          have h1' : rest.length + 1 ≤ f + 1 := by simpa using h
          have hlen := drop_len_le rest ((step st c rest).k - 1) f h1'
          cases hf : (step st c rest).flush
          · rw [pyLoop_cons_no f buf acc hf, scanRun_cons_no f buf hf]
            exact ih _ _ _ _ hlen
          · rw [pyLoop_cons_flush f buf acc hf, scanRun_cons_flush f buf hf]
            rw [ih _ _ _ _ hlen]
            simp only [List.cons_append, List.map_cons, dropEmpties_cons]
            split_ifs with hb <;> simp

/-! ### Flush-free runs -/

/-- If a scan never flushes, the final buffer is the initial buffer followed by
the whole input: every consumed character is appended verbatim. -/
lemma scanRun_flushFree_content : ∀ (fuel : Nat) (cs : List Char) (st : St)
    (buf : List Char), cs.length ≤ fuel → (scanRun fuel cs st buf).1 = [] →
    (scanRun fuel cs st buf).2.1 = buf ++ cs := by
  intro fuel
  induction fuel with
  | zero =>
      intro cs st buf h _
      cases cs with
      | nil => rw [scanRun_nil]; simp
      | cons c rest => simp at h
  | succ f ih =>
      intro cs st buf h hff
      cases cs with
      | nil => rw [scanRun_nil]; simp
      | cons c rest =>
          have h1' : rest.length + 1 ≤ f + 1 := by simpa using h
          have hlen := drop_len_le rest ((step st c rest).k - 1) f h1'
          cases hf : (step st c rest).flush
          · rw [scanRun_cons_no f buf hf] at hff ⊢
            rw [ih _ _ _ hlen hff, step_consumed hf]
            simp
          · rw [scanRun_cons_flush f buf hf] at hff
            exact absurd hff (by simp)

/-- A script containing no semicolon at all never flushes. -/
lemma scanRun_noSemi : ∀ (fuel : Nat) (cs : List Char) (st : St) (buf : List Char),
    cs.length ≤ fuel → (∀ x ∈ cs, x ≠ ';') → (scanRun fuel cs st buf).1 = [] := by
  intro fuel
  induction fuel with
  | zero =>
      intro cs st buf h _
      cases cs with
      | nil => rw [scanRun_nil]
      | cons c rest => simp at h
  | succ f ih =>
      intro cs st buf h hsemi
      cases cs with
      | nil => rw [scanRun_nil]
      | cons c rest =>
          have h1' : rest.length + 1 ≤ f + 1 := by simpa using h
          have hlen := drop_len_le rest ((step st c rest).k - 1) f h1'
          cases hf : (step st c rest).flush
          · rw [scanRun_cons_no f buf hf]
            exact ih _ _ _ hlen (fun x hx =>
              hsemi x (List.mem_cons_of_mem c (List.mem_of_mem_drop hx)))
          · exact absurd (step_flush_spec hf).2.2.2.2.2.2
              (hsemi c (List.mem_cons_self c rest))

lemma dropEmpties_of_ne (l : List (List Char)) (h : ∀ x ∈ l, x ≠ []) :
    dropEmpties l = l := by
  induction l with
  | nil => rfl
  | cons x xs ih =>
      rw [dropEmpties_cons, if_neg (h x (List.mem_cons_self x xs))]
      rw [ih (fun y hy => h y (List.mem_cons_of_mem x hy))]

/-! ### Claims C1 and C9 -/

/-- C1: if the `N` top-level semicolons of a script separate `N + 1` chunks
that are all non-empty after trimming, `split_sql_statements` returns exactly
those `N + 1` trimmed chunks in order; and a script containing no semicolon at
all yields exactly its trimmed text as the single statement, or no statement
when it is entirely whitespace. -/
theorem claim_C1 (cs : List Char) :
    ((∀ ch ∈ rawChunks cs, pyStrip ch ≠ []) →
        splitCore cs = (rawChunks cs).map pyStrip
          ∧ (splitCore cs).length = topSemiCount cs + 1)
    ∧ ((∀ x ∈ cs, x ≠ ';') →
        splitCore cs = if pyStrip cs = [] then [] else [pyStrip cs]) := by
  have hbridge := pyLoop_scanRun cs.length cs initSt [] [] (le_refl _)
  constructor
  · intro hne
    have he : splitCore cs = (rawChunks cs).map pyStrip := by
      rw [splitCore, hbridge, List.nil_append]
      exact dropEmpties_of_ne _ (by
        intro x hx
        obtain ⟨ch, hch, rfl⟩ := List.mem_map.1 hx
        exact hne ch hch)
    refine ⟨he, ?_⟩
    rw [he, List.length_map, rawChunks, topSemiCount, List.length_append]
    simp
  · intro hsemi
    have hff := scanRun_noSemi cs.length cs initSt [] (le_refl _) hsemi
    have hct := scanRun_flushFree_content cs.length cs initSt [] (le_refl _) hff
    rw [splitCore, hbridge, hff, hct]
    simp only [List.nil_append, List.map_cons, List.map_nil, dropEmpties_cons,
      dropEmpties_nil]

/-- Witness for C1 at the concrete scripts `"a;b"` (two non-empty chunks) and
`"ab"`, `"  "` (no semicolons). -/
theorem claim_C1_witness :
    splitCore "a;b".data = ["a".data, "b".data]
      ∧ splitCore "ab".data = ["ab".data]
      ∧ splitCore "  ".data = [] := by
  refine ⟨?_, ?_, ?_⟩
  · rw [((claim_C1 "a;b".data).1 (by decide)).1]; decide
  · rw [(claim_C1 "ab".data).2 (by decide)]; decide
  · rw [(claim_C1 "  ".data).2 (by decide)]; decide

/-- C9: the scan is total: any fuel of at least the input length (one loop
iteration consumes at least one character) computes the same statement list,
and at end of input the trimmed buffer, when non-empty, is flushed as the
final statement regardless of the scan state. -/
theorem claim_C9 :
    (∀ (fuel : Nat) (cs : List Char) (st : St) (buf : List Char)
        (acc : List (List Char)), cs.length ≤ fuel →
        pyLoop fuel cs st buf acc = pyLoop cs.length cs st buf acc)
    ∧ (∀ (fuel : Nat) (st : St) (buf : List Char) (acc : List (List Char)),
        pyLoop fuel [] st buf acc
          = if pyStrip buf = [] then acc else acc ++ [pyStrip buf]) := by
  constructor
  · intro fuel cs st buf acc h
    rw [pyLoop_scanRun fuel cs st buf acc h,
        pyLoop_scanRun cs.length cs st buf acc (le_refl _),
        scanRun_fuel fuel cs.length cs st buf h (le_refl _)]
  · intro fuel st buf acc
    exact pyLoop_nil fuel st buf acc

/-- Witness for C9: extra fuel does not change the result on `"a;b"`, and an
end-of-input flush happens even in an unterminated line-comment state. -/
theorem claim_C9_witness :
    pyLoop 17 "a;b".data initSt [] [] = pyLoop 3 "a;b".data initSt [] []
      ∧ pyLoop 6 [] ⟨false, false, true, false, false, none⟩ "-- x".data []
          = ["-- x".data] := by
  constructor
  · exact claim_C9.1 17 "a;b".data initSt [] [] (by decide)
  · rw [claim_C9.2 6 ⟨false, false, true, false, false, none⟩ "-- x".data []]
    decide

/-! ### Concrete splitting claims (C3, C5, C6, C7) -/

/-- Python's `str.strip` lifted to `String`. -/
def pyStripStr (s : String) : String :=
  (pyStrip s.data).asString

/-- C3 fails as stated: on `SELECT 'a;b';` the splitter returns one statement,
but that statement is `SELECT 'a;b'` — the final top-level semicolon is a
separator and is not part of the statement — so it is *not* equal to the
trimmed input `SELECT 'a;b';`. -/
theorem claim_C3_cex :
    ¬ split_sql_statements "SELECT 'a;b';" = [pyStripStr "SELECT 'a;b';"] := by
  decide

/-- C3 (amended): on `SELECT 'a;b';` the splitter returns exactly one
statement, equal to the trimmed input with its final semicolon removed (the
semicolon inside the single-quoted literal is not a statement boundary). -/
theorem claim_C3 :
    split_sql_statements "SELECT 'a;b';"
      = [((pyStrip "SELECT 'a;b';".data).dropLast).asString]
      ∧ ((pyStrip "SELECT 'a;b';".data).dropLast).asString = "SELECT 'a;b'" := by
  constructor <;> decide

/-- C5: on `INSERT INTO t VALUES ('a''b;c');` the splitter returns exactly one
statement: inside a single-quoted string a doubled quote is appended as two
literal characters without leaving the string (second conjunct: the `step` from
the `SingleQuoted` state at `''` consumes both quotes and keeps the state
unchanged), so the interior semicolon is not a boundary. -/
theorem claim_C5 :
    split_sql_statements "INSERT INTO t VALUES ('a''b;c');"
        = ["INSERT INTO t VALUES ('a''b;c')"]
      ∧ step ⟨true, false, false, false, false, none⟩ '\'' ('\'' :: 'b' :: ';' :: [])
          = ⟨2, ['\'', '\''], ⟨true, false, false, false, false, none⟩, false⟩ := by
  constructor <;> decide

set_option maxRecDepth 40000 in
/-- C6: on the dollar-quoted function definition the splitter returns exactly
one statement whose text contains the full `$$ ... $$` body verbatim
(exhibited by the explicit decomposition in the second conjunct); the
semicolons between the matching `$$` delimiters are not boundaries. -/
theorem claim_C6 :
    split_sql_statements
        "CREATE FUNCTION f() RETURNS void AS $$ BEGIN RAISE NOTICE 'x;y'; END; $$ LANGUAGE plpgsql;"
        = ["CREATE FUNCTION f() RETURNS void AS $$ BEGIN RAISE NOTICE 'x;y'; END; $$ LANGUAGE plpgsql"]
      ∧ "CREATE FUNCTION f() RETURNS void AS $$ BEGIN RAISE NOTICE 'x;y'; END; $$ LANGUAGE plpgsql".data
          = "CREATE FUNCTION f() RETURNS void AS ".data
              ++ "$$ BEGIN RAISE NOTICE 'x;y'; END; $$".data
              ++ " LANGUAGE plpgsql".data := by
  constructor <;> decide

/-- C7: on `SELECT 1; -- stop; now\nSELECT 2;` the splitter returns exactly the
two statements `SELECT 1` and `-- stop; now\nSELECT 2`: the semicolon after
`--` is comment content, and the newline that ends the line comment is itself
appended (second conjunct: the `step` from the `LineComment` state at `\n`
appends the newline and clears the flag). -/
theorem claim_C7 :
    split_sql_statements "SELECT 1; -- stop; now\nSELECT 2;"
        = ["SELECT 1", "-- stop; now\nSELECT 2"]
      ∧ step ⟨false, false, true, false, false, none⟩ '\n' ('S' :: [])
          = ⟨1, ['\n'], ⟨false, false, false, false, false, none⟩, false⟩ := by
  constructor <;> decide

/-! ### Claims about the dollar-quote and block-comment states (C2, C8) -/

/-- C2 fails as stated: from the `DollarQuoted("$a$")` state at the
non-matching token `$b$`, the scanner does not append a single character and
advance one position — it appends the whole token and advances three (first
conjunct) — and consequently a closing `$a$` that begins *inside* the
non-matching token `$b$` is not recognized: in `$a$$b$a$;x` the dollar quote
never closes and the semicolon is not a boundary (second conjunct; the claim
would give the two statements `$a$$b$a$` and `x`). -/
theorem claim_C2_cex :
    ¬ (step ⟨false, false, false, false, true, some ('$' :: 'a' :: '$' :: [])⟩
          '$' ('b' :: '$' :: 'a' :: '$' :: ';' :: 'x' :: [])).k = 1
      ∧ split_sql_statements "$a$$b$a$;x" = ["$a$$b$a$;x"] := by
  constructor <;> decide

/-- C2 (amended): while in `DollarQuoted(tag)` (dollar flag set, all other
flags clear), a `$`-token equal to `tag` closes the quote; a `$`-token not
equal to `tag` is appended whole and skipped, staying in the state (so a
closing `$tag$` beginning immediately after it is recognized, but one
overlapping it is not); any other character is appended singly, staying in the
state — in particular semicolons are never boundaries there. -/
theorem claim_C2 (st : St) (c : Char) (rest : List Char)
    (h1 : st.in_dollar = true) (h2 : st.in_single = false)
    (h3 : st.in_double = false) (h4 : st.in_line_comment = false)
    (h5 : st.in_block_comment = false) :
    ((c = '$' ∧ (rest.drop (rest.takeWhile isTagChar).length).head? = some '$')
        → st.dollar_tag = some ('$' :: (rest.takeWhile isTagChar ++ ['$']))
        → step st c rest
            = ⟨(rest.takeWhile isTagChar).length + 2,
               '$' :: (rest.takeWhile isTagChar ++ ['$']),
               { st with in_dollar := false, dollar_tag := none }, false⟩)
    ∧ ((c = '$' ∧ (rest.drop (rest.takeWhile isTagChar).length).head? = some '$')
        → ¬ st.dollar_tag = some ('$' :: (rest.takeWhile isTagChar ++ ['$']))
        → step st c rest
            = ⟨(rest.takeWhile isTagChar).length + 2,
               '$' :: (rest.takeWhile isTagChar ++ ['$']), st, false⟩)
    ∧ (¬ (c = '$' ∧ (rest.drop (rest.takeWhile isTagChar).length).head? = some '$')
        → step st c rest = ⟨1, [c], st, false⟩) := by
  obtain ⟨s1, s2, s3, s4, s5, tg⟩ := st
  simp only at h1 h2 h3 h4 h5
  subst h1 h2 h3 h4 h5
  unfold step
  simp only []
  refine ⟨?_, ?_, ?_⟩
  · intro hc htag
    rw [if_neg (by simp), if_neg (by simp), if_neg (by simp), if_neg (by simp),
        if_neg (by simp), if_neg (by simp), if_pos (by exact ⟨trivial, trivial, hc.1, hc.2⟩),
        if_pos (by exact ⟨trivial, htag⟩)]
  · intro hc htag
    rw [if_neg (by simp), if_neg (by simp), if_neg (by simp), if_neg (by simp),
        if_neg (by simp), if_neg (by simp), if_pos (by exact ⟨trivial, trivial, hc.1, hc.2⟩),
        if_neg (by simp [htag]), if_neg (by simp)]
  · intro hc
    rw [if_neg (by simp), if_neg (by simp), if_neg (by simp), if_neg (by simp),
        if_neg (by simp), if_neg (by simp), if_neg (by simpa using hc),
        if_neg (by simp)]

/-- Witness for C2 (amended): closing (`$a$` matches the tag), skipping a
non-matching token (`$b$`), and a plain character, at concrete inputs. -/
theorem claim_C2_witness :
    step ⟨false, false, false, false, true, some ('$' :: 'a' :: '$' :: [])⟩
        '$' ('a' :: '$' :: ';' :: [])
        = ⟨3, '$' :: 'a' :: '$' :: [], ⟨false, false, false, false, false, none⟩, false⟩
      ∧ step ⟨false, false, false, false, true, some ('$' :: 'a' :: '$' :: [])⟩
          '$' ('b' :: '$' :: [])
          = ⟨3, '$' :: 'b' :: '$' :: [],
             ⟨false, false, false, false, true, some ('$' :: 'a' :: '$' :: [])⟩, false⟩
      ∧ step ⟨false, false, false, false, true, some ('$' :: 'a' :: '$' :: [])⟩
          ';' ('x' :: [])
          = ⟨1, [';'], ⟨false, false, false, false, true, some ('$' :: 'a' :: '$' :: [])⟩,
             false⟩ := by
  refine ⟨?_, ?_, ?_⟩
  · have h := (claim_C2 ⟨false, false, false, false, true, some ('$' :: 'a' :: '$' :: [])⟩
      '$' ('a' :: '$' :: ';' :: []) rfl rfl rfl rfl rfl).1 (by decide) (by decide)
    rw [h]; decide
  · have h := (claim_C2 ⟨false, false, false, false, true, some ('$' :: 'a' :: '$' :: [])⟩
      '$' ('b' :: '$' :: []) rfl rfl rfl rfl rfl).2.1 (by decide) (by decide)
    rw [h]; decide
  · have h := (claim_C2 ⟨false, false, false, false, true, some ('$' :: 'a' :: '$' :: [])⟩
      ';' ('x' :: []) rfl rfl rfl rfl rfl).2.2 (by decide)
    rw [h]

/-- C8: block comments do not nest: from the `BlockComment` state (block flag
set, line flag clear) the scan never flushes — semicolons there are never
boundaries — and it leaves the state exactly at `*/` (the first such pair,
since an intervening `/*` is handled by the any-other-character case, which
changes nothing). -/
theorem claim_C8 (st : St) (c : Char) (rest : List Char)
    (hb : st.in_block_comment = true) (hl : st.in_line_comment = false) :
    (step st c rest).flush = false
      ∧ ((step st c rest).st.in_block_comment = false ↔ (c = '*' ∧ rest.head? = some '/'))
      ∧ ((c = '*' ∧ rest.head? = some '/') →
          step st c rest = ⟨2, [c, '/'], { st with in_block_comment := false }, false⟩)
      ∧ (¬ (c = '*' ∧ rest.head? = some '/') → step st c rest = ⟨1, [c], st, false⟩) := by
  refine ⟨?_, ?_, ?_, ?_⟩
  · unfold step; split_ifs <;> simp_all
  · unfold step; split_ifs <;> simp_all
  · intro hc; unfold step; split_ifs <;> simp_all
  · intro hc; unfold step; split_ifs <;> simp_all

/-- Witness for C8: inside a block comment, an intervening `/*` and a `;` do
not change the state or flush, and the first `*/` closes it. -/
theorem claim_C8_witness :
    step ⟨false, false, false, true, false, none⟩ '*' ('/' :: 'x' :: [])
        = ⟨2, ['*', '/'], ⟨false, false, false, false, false, none⟩, false⟩
      ∧ step ⟨false, false, false, true, false, none⟩ '/' ('*' :: [])
          = ⟨1, ['/'], ⟨false, false, false, true, false, none⟩, false⟩
      ∧ step ⟨false, false, false, true, false, none⟩ ';' ('x' :: [])
          = ⟨1, [';'], ⟨false, false, false, true, false, none⟩, false⟩ := by
  refine ⟨?_, ?_, ?_⟩
  · have h := (claim_C8 ⟨false, false, false, true, false, none⟩ '*' ('/' :: 'x' :: [])
      rfl rfl).2.2.1 (by decide)
    rw [h]
  · have h := (claim_C8 ⟨false, false, false, true, false, none⟩ '/' ('*' :: [])
      rfl rfl).2.2.2 (by decide)
    rw [h]
  · have h := (claim_C8 ⟨false, false, false, true, false, none⟩ ';' ('x' :: [])
      rfl rfl).2.2.2 (by decide)
    rw [h]

/-! ### Appending input across a safe frontier

A `step` inspects the input beyond the characters it consumes only through
one-character lookahead (for `--`, `/*`, `*/`, `''`) and the dollar-tag
sub-scan.  If the first character of an appended continuation is none of the
lookahead trigger characters and not a tag character, every step behaves on
`rest ++ ds` exactly as on `rest`; a semicolon and any whitespace character
are such "safe" junction characters. -/

/-- A junction character that no lookahead can absorb. -/
def junctionSafe (d : Char) : Prop :=
  isTagChar d = false ∧ d ≠ '$' ∧ d ≠ '-' ∧ d ≠ '*' ∧ d ≠ '/' ∧ d ≠ '\''

lemma junctionSafe_semi : junctionSafe ';' := by
  refine ⟨by decide, by decide, by decide, by decide, by decide, by decide⟩

lemma junctionSafe_of_space {d : Char} (h : isPySpace d = true) : junctionSafe d := by
  simp only [isPySpace, Bool.or_eq_true, decide_eq_true_eq] at h
  rcases h with ((((h | h) | h) | h) | h) | h <;> subst h <;>
    exact ⟨by decide, by decide, by decide, by decide, by decide, by decide⟩

lemma headq_app {rest ds : List Char} {d x : Char} (hds : ds.head? = some d)
    (hdx : d ≠ x) : ((rest ++ ds).head? = some x) ↔ (rest.head? = some x) := by
  cases rest with
  | nil => simp [hds, hdx]
  | cons a t => simp

lemma takeWhile_app {rest ds : List Char} {d : Char} (hds : ds.head? = some d)
    (hd : isTagChar d = false) :
    (rest ++ ds).takeWhile isTagChar = rest.takeWhile isTagChar := by
  induction rest with
  | nil =>
      cases ds with
      | nil => simp at hds
      | cons a t =>
          simp only [List.head?_cons, Option.some.injEq] at hds
          subst hds
          simp [List.takeWhile_cons, hd]
  | cons a l ih =>
      by_cases h : isTagChar a
      · simp [List.takeWhile_cons, h, ih]
      · simp [List.takeWhile_cons, h]

lemma takeWhile_len_le (p : Char → Bool) (l : List Char) :
    (l.takeWhile p).length ≤ l.length := by
  induction l with
  | nil => simp
  | cons a t ih =>
      by_cases h : p a
      · simp only [List.takeWhile_cons_of_pos h, List.length_cons]; omega
      · simp [List.takeWhile_cons_of_neg h]

lemma dropHead_app {rest ds : List Char} {d : Char} {n : Nat}
    (hds : ds.head? = some d) (hd : d ≠ '$') (hn : n ≤ rest.length) :
    (((rest ++ ds).drop n).head? = some '$') ↔ ((rest.drop n).head? = some '$') := by
  rw [List.drop_append_of_le_length hn]
  cases hrd : rest.drop n with
  | nil => simp [hds, hd]
  | cons a t => simp

/-- Lockstep across a safe junction: a step on `rest ++ ds` equals the step on
`rest` alone whenever `ds` opens with a safe character. -/
lemma step_frontier (ds : List Char) {d : Char} (hds : ds.head? = some d)
    (hsafe : junctionSafe d) (st : St) (c : Char) (rest : List Char) :
    step st c (rest ++ ds) = step st c rest := by
  obtain ⟨ht, hdol, hminus, hstar, hslash, hquote⟩ := hsafe
  unfold step
  simp only [headq_app hds hminus, headq_app hds hstar, headq_app hds hslash,
    headq_app hds hquote, takeWhile_app hds ht,
    dropHead_app hds hdol (takeWhile_len_le isTagChar rest)]

/-- Run composition: the scan over a probe that continues with a
safe-headed suffix `ds`. -/
def runThen (a : List (List Char) × List Char × St) (ds : List Char) :
    List (List Char) × List Char × St :=
  (a.1 ++ (scanRun ds.length ds a.2.2 a.2.1).1,
   (scanRun ds.length ds a.2.2 a.2.1).2.1,
   (scanRun ds.length ds a.2.2 a.2.1).2.2)

/-- Decomposing a scan over `cs ++ ds` when `ds` is empty or opens with a safe
junction character: scan `cs`, then scan `ds` from the state and buffer the
first scan reached. -/
lemma scanRun_append : ∀ (F : Nat) (cs ds : List Char) (st : St) (buf : List Char),
    cs.length + ds.length ≤ F →
    (ds = [] ∨ ∃ d, ds.head? = some d ∧ junctionSafe d) →
    scanRun F (cs ++ ds) st buf = runThen (scanRun cs.length cs st buf) ds := by
  intro F
  induction F with
  | zero =>
      intro cs ds st buf hF _
      have hcs : cs = [] := by
        cases cs with
        | nil => rfl
        | cons c r => simp at hF
      have hds : ds = [] := by
        cases ds with
        | nil => rfl
        | cons d r => rw [hcs] at hF; simp at hF
      subst hcs; subst hds
      rfl
  | succ F ih =>
      intro cs ds st buf hF hsafe
      cases cs with
      | nil =>
          rw [List.nil_append, scanRun_nil]
          rw [scanRun_fuel (F + 1) ds.length ds st buf (by simpa using hF) (le_refl _)]
          show _ = ((scanRun ds.length ds st buf).1,
            (scanRun ds.length ds st buf).2.1, (scanRun ds.length ds st buf).2.2)
          rfl
      | cons c rest =>
          rcases hsafe with rfl | ⟨d, hds, hdsafe⟩
          · rw [List.append_nil]
            rw [scanRun_fuel (F + 1) (c :: rest).length (c :: rest) st buf
              (by simpa using hF) (le_refl _)]
            simp [runThen, scanRun_nil]
          · have hstep := step_frontier ds hds hdsafe st c rest
            have hkle := step_k_le st c rest
            have hdeq : (rest ++ ds).drop ((step st c rest).k - 1)
                = rest.drop ((step st c rest).k - 1) ++ ds :=
              List.drop_append_of_le_length hkle
            have hlen1 : (rest.drop ((step st c rest).k - 1)).length + ds.length ≤ F := by
              have := List.length_drop ((step st c rest).k - 1) rest
              simp only [List.length_cons, List.length_append] at hF ⊢
              omega
            have hlen2 : (rest.drop ((step st c rest).k - 1)).length ≤ rest.length := by
              rw [List.length_drop]; omega
            cases hf : (step st c rest).flush
            · have hf' : (step st c (rest ++ ds)).flush = false := by rw [hstep]; exact hf
              rw [List.cons_append, scanRun_cons_no F buf hf', hstep, hdeq,
                  ih _ _ _ _ hlen1 (Or.inr ⟨d, hds, hdsafe⟩)]
              rw [List.length_cons, scanRun_cons_no rest.length buf hf,
                  scanRun_fuel rest.length (rest.drop ((step st c rest).k - 1)).length
                    (rest.drop ((step st c rest).k - 1)) (step st c rest).st
                    (buf ++ (step st c rest).app) hlen2 (le_refl _)]
            · have hf' : (step st c (rest ++ ds)).flush = true := by rw [hstep]; exact hf
              rw [List.cons_append, scanRun_cons_flush F buf hf', hstep, hdeq,
                  ih _ _ _ _ hlen1 (Or.inr ⟨d, hds, hdsafe⟩)]
              rw [List.length_cons, scanRun_cons_flush rest.length buf hf,
                  scanRun_fuel rest.length (rest.drop ((step st c rest).k - 1)).length
                    (rest.drop ((step st c rest).k - 1)) (step st c rest).st []
                    hlen2 (le_refl _)]
              show (buf :: (runThen _ ds).1, (runThen _ ds).2.1, (runThen _ ds).2.2) = _
              simp [runThen, List.cons_append]

/-! ### The state after a flush is the initial state -/

/-- The tag field is meaningful only while the dollar flag is set; the source
clears it when closing a dollar quote (line 92) and it starts out `None`. -/
def TagInv (st : St) : Prop :=
  st.in_dollar = false → st.dollar_tag = none

lemma step_tagInv {st : St} (c : Char) (rest : List Char) (h : TagInv st) :
    TagInv (step st c rest).st := by
  unfold step
  split_ifs
  all_goals intro hd
  all_goals
    first
      | exact h hd
      | rfl
      | exact Bool.noConfusion hd

lemma scanRun_tagInv : ∀ (fuel : Nat) (cs : List Char) (st : St) (buf : List Char),
    TagInv st → TagInv (scanRun fuel cs st buf).2.2 := by
  intro fuel
  induction fuel with
  | zero =>
      intro cs st buf h
      cases cs with
      | nil => rw [scanRun_nil]; exact h
      | cons c rest => exact h
  | succ f ih =>
      intro cs st buf h
      cases cs with
      | nil => rw [scanRun_nil]; exact h
      | cons c rest =>
          cases hf : (step st c rest).flush
          · rw [scanRun_cons_no f buf hf]
            exact ih _ _ _ (step_tagInv c rest h)
          · rw [scanRun_cons_flush f buf hf]
            exact ih _ _ _ (step_tagInv c rest h)

/-! ### Decomposing a run at its first flush -/

/-- If a scan flushes at least once, the input splits as
`cs₁ ++ ';' :: cs₂` where scanning `cs₁` alone from the same state is
flush-free and produces the first chunk, the semicolon is reached with all
five flags clear, and the rest of the run continues on `cs₂` from that state
with an empty buffer. -/
lemma firstChunk : ∀ (fuel : Nat) (cs : List Char) (st : St) (buf : List Char)
    (x : List Char) (xs : List (List Char)) (b : List Char) (s : St),
    cs.length ≤ fuel → scanRun fuel cs st buf = (x :: xs, b, s) →
    ∃ cs₁ cs₂ st₁, cs = cs₁ ++ ';' :: cs₂
      ∧ scanRun cs₁.length cs₁ st buf = ([], x, st₁)
      ∧ st₁.in_single = false ∧ st₁.in_double = false ∧ st₁.in_dollar = false
      ∧ st₁.in_line_comment = false ∧ st₁.in_block_comment = false
      ∧ scanRun cs₂.length cs₂ st₁ [] = (xs, b, s) := by
  intro fuel
  induction fuel with
  | zero =>
      intro cs st buf x xs b s hF hrun
      cases cs with
      | nil =>
          rw [scanRun_nil] at hrun
          exact absurd (congrArg Prod.fst hrun) (by simp)
      | cons c rest => simp at hF
  | succ F ih =>
      intro cs st buf x xs b s hF hrun
      cases cs with
      | nil =>
          rw [scanRun_nil] at hrun
          exact absurd (congrArg Prod.fst hrun) (by simp)
      | cons c rest =>
          have hF' : rest.length ≤ F := by simpa using hF
          have hkle := step_k_le st c rest
          cases hf : (step st c rest).flush
          · rw [scanRun_cons_no F buf hf] at hrun
            have hlen : (rest.drop ((step st c rest).k - 1)).length ≤ F := by
              rw [List.length_drop]; omega
            obtain ⟨cs₁', cs₂, st₁, hdec, hrun1, hf1, hf2, hf3, hf4, hf5, hrun2⟩ :=
              ih _ _ _ _ _ _ _ hlen hrun
            have htklen : (rest.take ((step st c rest).k - 1)).length
                = (step st c rest).k - 1 := by
              rw [List.length_take]; omega
            have hrest : rest = (rest.take ((step st c rest).k - 1) ++ cs₁') ++ ';' :: cs₂ := by
              rw [List.append_assoc, ← hdec, List.take_append_drop]
            refine ⟨c :: (rest.take ((step st c rest).k - 1) ++ cs₁'), cs₂, st₁, ?_, ?_,
              hf1, hf2, hf3, hf4, hf5, hrun2⟩
            · rw [List.cons_append, ← hrest]
            · have hstep2 : step st c (rest.take ((step st c rest).k - 1) ++ cs₁')
                  = step st c rest := by
                conv_rhs => rw [hrest]
                rw [step_frontier (';' :: cs₂) rfl junctionSafe_semi]
              have hf'' : (step st c (rest.take ((step st c rest).k - 1) ++ cs₁')).flush
                  = false := by rw [hstep2]; exact hf
              rw [List.length_cons,
                  scanRun_cons_no (rest.take ((step st c rest).k - 1) ++ cs₁').length _ hf'',
                  hstep2]
              have hdrop : (rest.take ((step st c rest).k - 1) ++ cs₁').drop
                  ((step st c rest).k - 1) = cs₁' :=
                List.drop_left' htklen
              rw [hdrop]
              rw [scanRun_fuel (rest.take ((step st c rest).k - 1) ++ cs₁').length
                cs₁'.length cs₁' (step st c rest).st (buf ++ (step st c rest).app)
                (by simp) (le_refl _)]
              exact hrun1
          · rw [scanRun_cons_flush F buf hf] at hrun
            obtain ⟨hstep, hl1, hl2, hl3, hl4, hl5, hc⟩ := step_flush_spec hf
            simp only [Prod.mk.injEq, List.cons.injEq] at hrun
            obtain ⟨⟨hx, hxs⟩, hb, hs⟩ := hrun
            refine ⟨[], rest, st, ?_, ?_, hl3, hl4, hl5, hl1, hl2, ?_⟩
            · rw [hc]; rfl
            · rw [scanRun_nil, hx]
            · rw [← hxs, ← hb, ← hs]
              rw [show (step st c rest).k - 1 = 0 from by rw [hstep]; rfl,
                  show (step st c rest).st = st from by rw [hstep], List.drop_zero]
              rw [scanRun_fuel rest.length F rest st [] (le_refl _) hF']

lemma st_eq_initSt {st : St} (h1 : st.in_single = false) (h2 : st.in_double = false)
    (h3 : st.in_dollar = false) (h4 : st.in_line_comment = false)
    (h5 : st.in_block_comment = false) (h6 : TagInv st) : st = initSt := by
  have h7 := h6 h3
  obtain ⟨s1, s2, s3, s4, s5, tg⟩ := st
  unfold initSt
  rw [St.mk.injEq]
  exact ⟨h1, h2, h4, h5, h3, h7⟩

/-- The buffer is passive: it cannot cause or prevent a flush, and the final
state does not depend on it. -/
lemma scanRun_buf : ∀ (fuel : Nat) (cs : List Char) (st : St) (b b' : List Char),
    ((scanRun fuel cs st b).1 = [] → (scanRun fuel cs st b').1 = [])
      ∧ (scanRun fuel cs st b).2.2 = (scanRun fuel cs st b').2.2 := by
  intro fuel
  induction fuel with
  | zero =>
      intro cs st b b'
      cases cs with
      | nil => rw [scanRun_nil, scanRun_nil]; exact ⟨fun _ => rfl, rfl⟩
      | cons c rest => exact ⟨fun _ => rfl, rfl⟩
  | succ f ih =>
      intro cs st b b'
      cases cs with
      | nil => rw [scanRun_nil, scanRun_nil]; exact ⟨fun _ => rfl, rfl⟩
      | cons c rest =>
          cases hf : (step st c rest).flush
          · rw [scanRun_cons_no f b hf, scanRun_cons_no f b' hf]
            exact ih _ _ _ _
          · rw [scanRun_cons_flush f b hf, scanRun_cons_flush f b' hf]
            exact ⟨fun h => absurd h (by simp), rfl⟩

lemma mem_dropEmpties {x : List Char} : ∀ {l : List (List Char)},
    x ∈ dropEmpties l ↔ (x ∈ l ∧ x ≠ []) := by
  intro l
  induction l with
  | nil => simp
  | cons a t ih =>
      by_cases h : a = []
      · rw [dropEmpties_cons, if_pos h, ih]
        subst h
        constructor
        · exact fun ⟨h1, h2⟩ => ⟨List.mem_cons_of_mem _ h1, h2⟩
        · rintro ⟨h1, h2⟩
          rcases List.mem_cons.1 h1 with rfl | h3
          · exact absurd rfl h2
          · exact ⟨h3, h2⟩
      · rw [dropEmpties_cons, if_neg h]
        constructor
        · intro hm
          rcases List.mem_cons.1 hm with rfl | h3
          · exact ⟨List.mem_cons_self _ _, h⟩
          · exact ⟨List.mem_cons_of_mem _ (ih.1 h3).1, (ih.1 h3).2⟩
        · rintro ⟨h1, h2⟩
          rcases List.mem_cons.1 h1 with rfl | h3
          · exact List.mem_cons_self _ _
          · exact List.mem_cons_of_mem _ (ih.2 ⟨h3, h2⟩)

lemma dropEmpties_append : ∀ (l1 l2 : List (List Char)),
    dropEmpties (l1 ++ l2) = dropEmpties l1 ++ dropEmpties l2 := by
  intro l1 l2
  induction l1 with
  | nil => simp
  | cons a t ih =>
      rw [List.cons_append, dropEmpties_cons, dropEmpties_cons]
      by_cases h : a = []
      · rw [if_pos h, if_pos h, ih]
      · rw [if_neg h, if_neg h, ih, List.cons_append]

/-- Every raw chunk of a scan started in the initial state, scanned alone from
the initial state, reproduces itself without flushing: chunks always begin
with the scanner in the initial state, contain no top-level semicolon, and no
token crosses the `;` frontier. -/
lemma chunks_selfScan : ∀ (xs : List (List Char)) (cs : List Char) (b : List Char) (s : St),
    scanRun cs.length cs initSt [] = (xs, b, s) →
    (∀ x ∈ xs, ∃ s', scanRun x.length x initSt [] = ([], x, s'))
      ∧ (∃ s', scanRun b.length b initSt [] = ([], b, s')) := by
  intro xs
  induction xs with
  | nil =>
      intro cs b s h
      refine ⟨by simp, ?_⟩
      have h1 : (scanRun cs.length cs initSt []).1 = [] := by rw [h]
      have h2 := scanRun_flushFree_content cs.length cs initSt [] (le_refl _) h1
      have h3 : (scanRun cs.length cs initSt []).2.1 = b := by rw [h]
      rw [h2, List.nil_append] at h3
      subst h3
      exact ⟨s, h⟩
  | cons x xs' ih =>
      intro cs b s h
      obtain ⟨cs₁, cs₂, st₁, hdec, hrun1, hg1, hg2, hg3, hg4, hg5, hrun2⟩ :=
        firstChunk cs.length cs initSt [] x xs' b s (le_refl _) h
      have htag : TagInv st₁ := by
        have h0 := scanRun_tagInv cs₁.length cs₁ initSt [] (fun _ => rfl)
        rw [hrun1] at h0
        exact h0
      have hst₁ : st₁ = initSt := st_eq_initSt hg1 hg2 hg3 hg4 hg5 htag
      subst hst₁
      have h1 : (scanRun cs₁.length cs₁ initSt []).1 = [] := by rw [hrun1]
      have hx : x = cs₁ := by
        have h2 := scanRun_flushFree_content cs₁.length cs₁ initSt [] (le_refl _) h1
        have h3 : (scanRun cs₁.length cs₁ initSt []).2.1 = x := by rw [hrun1]
        rw [h2, List.nil_append] at h3
        exact h3.symm
      obtain ⟨hall, hbS⟩ := ih cs₂ b s hrun2
      refine ⟨?_, hbS⟩
      intro y hy
      rcases List.mem_cons.1 hy with rfl | hy'
      · rw [hx] at hrun1 ⊢
        exact ⟨initSt, hrun1⟩
      · exact hall y hy'

/-- Every statement emitted by the splitter is the trim of a raw chunk that is
non-empty after trimming and scans alone, from the initial state, to itself
without flushing. -/
lemma splitCore_statements {cs stt : List Char} (h : stt ∈ splitCore cs) :
    ∃ ch, stt = pyStrip ch ∧ pyStrip ch ≠ []
      ∧ ∃ s', scanRun ch.length ch initSt [] = ([], ch, s') := by
  rw [splitCore, pyLoop_scanRun cs.length cs initSt [] [] (le_refl _),
    List.nil_append, mem_dropEmpties] at h
  obtain ⟨hmem, hne⟩ := h
  obtain ⟨ch, hch, rfl⟩ := List.mem_map.1 hmem
  refine ⟨ch, rfl, hne, ?_⟩
  rcases hrun : scanRun cs.length cs initSt [] with ⟨xs, b, s⟩
  rw [hrun] at hch
  obtain ⟨hall, hbS⟩ := chunks_selfScan xs cs b s hrun
  rcases List.mem_append.1 hch with h1 | h1
  · exact hall ch h1
  · have hb : ch = b := by simpa using h1
    subst hb
    exact hbS

/-! ### Trimming a self-scanning chunk preserves the property -/

lemma space_char_facts {a : Char} (h : isPySpace a = true) :
    a ≠ '-' ∧ a ≠ '/' ∧ a ≠ '\'' ∧ a ≠ '"' ∧ a ≠ '$' ∧ a ≠ ';' := by
  simp only [isPySpace, Bool.or_eq_true, decide_eq_true_eq] at h
  rcases h with ((((h | h) | h) | h) | h) | h <;> subst h <;>
    exact ⟨by decide, by decide, by decide, by decide, by decide, by decide⟩

/-- From the initial state, a whitespace character is a plain append. -/
lemma step_space {a : Char} (ha : isPySpace a = true) (r : List Char) :
    step initSt a r = ⟨1, [a], initSt, false⟩ := by
  obtain ⟨h1, h2, h3, h4, h5, h6⟩ := space_char_facts ha
  unfold step initSt
  rw [if_neg (by simp), if_neg (by simp), if_neg (by simp [h1]), if_neg (by simp [h2]),
      if_neg (by simp [h3]), if_neg (by simp [h4]), if_neg (by simp [h5]),
      if_neg (by simp [h6])]

/-- From the initial state, a semicolon always flushes. -/
lemma step_semi (r : List Char) : step initSt ';' r = ⟨1, [], initSt, true⟩ := by
  unfold step initSt
  rw [if_neg (by simp), if_neg (by simp), if_neg (by simp), if_neg (by simp),
      if_neg (by simp), if_neg (by simp), if_neg (by simp),
      if_pos ⟨rfl, rfl, rfl, rfl⟩]

/-- Leading whitespace is scanned as plain appends from the initial state. -/
lemma wsLead : ∀ (w cs buf : List Char) (fuel : Nat),
    (w ++ cs).length ≤ fuel → (∀ c ∈ w, isPySpace c = true) →
    scanRun fuel (w ++ cs) initSt buf = scanRun cs.length cs initSt (buf ++ w) := by
  intro w
  induction w with
  | nil =>
      intro cs buf fuel hF _
      rw [List.nil_append, List.append_nil]
      exact scanRun_fuel _ _ _ _ _ (by simpa using hF) (le_refl _)
  | cons a w' ih =>
      intro cs buf fuel hF hws
      have ha := hws a (List.mem_cons_self a w')
      cases fuel with
      | zero => simp at hF
      | succ F =>
          rw [List.cons_append]
          have hstep := step_space ha (w' ++ cs)
          have hf : (step initSt a (w' ++ cs)).flush = false := by rw [hstep]
          rw [scanRun_cons_no F buf hf, hstep]
          show scanRun F (List.drop 0 (w' ++ cs)) initSt (buf ++ [a])
            = scanRun cs.length cs initSt (buf ++ a :: w')
          rw [List.drop_zero]
          rw [ih cs (buf ++ [a]) F (by simpa using hF)
            (fun c hc => hws c (List.mem_cons_of_mem a hc))]
          rw [← List.append_cons]

lemma dropWhile_idem (p : Char → Bool) (l : List Char) :
    (l.dropWhile p).dropWhile p = l.dropWhile p := by
  induction l with
  | nil => rfl
  | cons a t ih =>
      by_cases h : p a
      · rw [List.dropWhile_cons_of_pos h]; exact ih
      · rw [List.dropWhile_cons_of_neg h, List.dropWhile_cons_of_neg h]

lemma dropWhile_head_not {p : Char → Bool} : ∀ {l : List Char} {x : Char},
    (l.dropWhile p).head? = some x → p x = false := by
  intro l
  induction l with
  | nil => intro x h; simp at h
  | cons a t ih =>
      intro x h
      by_cases hp : p a
      · rw [List.dropWhile_cons_of_pos hp] at h
        exact ih h
      · rw [List.dropWhile_cons_of_neg hp] at h
        simp only [List.head?_cons, Option.some.injEq] at h
        subst h
        simpa using hp

lemma getLast?_dropWhile {p : Char → Bool} {l : List Char} {x : Char}
    (h : (l.dropWhile p).getLast? = some x) : l.getLast? = some x := by
  rw [← List.takeWhile_append_dropWhile p l, List.getLast?_append, h]
  rfl

lemma head_not_dropWhile_eq {p : Char → Bool} {l : List Char}
    (h : ∀ x, l.head? = some x → p x = false) : l.dropWhile p = l := by
  cases l with
  | nil => rfl
  | cons a t =>
      rw [List.dropWhile_cons_of_neg]
      simp [h a rfl]

/-- Python's `strip` is idempotent. -/
lemma pyStrip_idem (l : List Char) : pyStrip (pyStrip l) = pyStrip l := by
  unfold pyStrip
  have h1 : (((l.dropWhile isPySpace).reverse.dropWhile isPySpace).reverse).dropWhile
      isPySpace = ((l.dropWhile isPySpace).reverse.dropWhile isPySpace).reverse := by
    apply head_not_dropWhile_eq
    intro x hx
    rw [List.head?_reverse] at hx
    have h2 := getLast?_dropWhile hx
    rw [List.getLast?_reverse] at h2
    exact dropWhile_head_not h2
  rw [h1, List.reverse_reverse, dropWhile_idem]

/-- Trimming preserves the self-scanning property: leading whitespace is a
plain prefix, trailing whitespace is a safe junction. -/
lemma selfScan_strip {ch : List Char}
    (h : ∃ s', scanRun ch.length ch initSt [] = ([], ch, s')) :
    ∃ s', scanRun (pyStrip ch).length (pyStrip ch) initSt [] = ([], pyStrip ch, s') := by
  obtain ⟨s0, h⟩ := h
  have hsplit1 : ch = ch.takeWhile isPySpace ++ ch.dropWhile isPySpace :=
    (List.takeWhile_append_dropWhile _ _).symm
  have hmid0 : scanRun ch.length ch initSt []
      = scanRun (ch.dropWhile isPySpace).length (ch.dropWhile isPySpace) initSt
          ([] ++ ch.takeWhile isPySpace) := by
    conv_lhs => rw [hsplit1]
    exact wsLead _ _ _ _ (le_refl _) (fun c hc => List.mem_takeWhile_imp hc)
  rw [h] at hmid0
  have hb1 : (scanRun (ch.dropWhile isPySpace).length (ch.dropWhile isPySpace) initSt
      ([] ++ ch.takeWhile isPySpace)).1 = [] := by rw [← hmid0]
  have hb2 : (scanRun (ch.dropWhile isPySpace).length (ch.dropWhile isPySpace) initSt
      []).1 = [] :=
    (scanRun_buf _ _ _ _ _).1 hb1
  have hct := scanRun_flushFree_content (ch.dropWhile isPySpace).length
    (ch.dropWhile isPySpace) initSt [] (le_refl _) hb2
  rw [List.nil_append] at hct
  -- Split the leading-trimmed text into the full trim and the trailing
  -- whitespace.
  have hM : ch.dropWhile isPySpace
      = pyStrip ch ++ ((ch.dropWhile isPySpace).reverse.takeWhile isPySpace).reverse := by
    conv_lhs => rw [← List.reverse_reverse (ch.dropWhile isPySpace),
      ← List.takeWhile_append_dropWhile isPySpace (ch.dropWhile isPySpace).reverse]
    rw [List.reverse_append]
    rfl
  have hsafe : ((ch.dropWhile isPySpace).reverse.takeWhile isPySpace).reverse = []
      ∨ ∃ d, (((ch.dropWhile isPySpace).reverse.takeWhile isPySpace).reverse).head?
          = some d ∧ junctionSafe d := by
    cases hw : ((ch.dropWhile isPySpace).reverse.takeWhile isPySpace).reverse with
    | nil => exact Or.inl rfl
    | cons d t =>
        refine Or.inr ⟨d, rfl, junctionSafe_of_space ?_⟩
        have hd : d ∈ ((ch.dropWhile isPySpace).reverse.takeWhile isPySpace).reverse := by
          rw [hw]; exact List.mem_cons_self _ _
        rw [List.mem_reverse] at hd
        exact List.mem_takeWhile_imp hd
  have happ := scanRun_append (ch.dropWhile isPySpace).length (pyStrip ch)
    (((ch.dropWhile isPySpace).reverse.takeWhile isPySpace).reverse) initSt []
    (by rw [← List.length_append, ← hM]) hsafe
  rw [← hM] at happ
  rcases hE : scanRun (ch.dropWhile isPySpace).length (ch.dropWhile isPySpace) initSt []
    with ⟨u, v, sM⟩
  rw [hE] at hb2 hct happ
  dsimp only at hb2 hct
  subst hb2
  simp only [runThen, Prod.mk.injEq] at happ
  obtain ⟨h5, -, -⟩ := happ
  have ha1 : (scanRun (pyStrip ch).length (pyStrip ch) initSt []).1 = [] :=
    (List.append_eq_nil.1 h5.symm).1
  have ha2 := scanRun_flushFree_content (pyStrip ch).length (pyStrip ch) initSt []
    (le_refl _) ha1
  rw [List.nil_append] at ha2
  refine ⟨(scanRun (pyStrip ch).length (pyStrip ch) initSt []).2.2, ?_⟩
  rcases hE2 : scanRun (pyStrip ch).length (pyStrip ch) initSt [] with ⟨p, q, s2⟩
  rw [hE2] at ha1 ha2
  dsimp only at ha1 ha2
  rw [ha1, ha2]

/-! ### Claims C10 and C4 -/

/-- C10: per-statement re-split fixpoint: every statement the splitter emits,
fed back alone into `split_sql_statements`, comes back unchanged as a
one-element list — it is already trimmed and contains no top-level
semicolon. -/
theorem claim_C10 (cs s : List Char) (h : s ∈ splitCore cs) :
    splitCore s = [s] := by
  obtain ⟨ch, rfl, hne, hself⟩ := splitCore_statements h
  obtain ⟨s', hs⟩ := selfScan_strip hself
  rw [splitCore, pyLoop_scanRun (pyStrip ch).length (pyStrip ch) initSt [] [] (le_refl _),
      List.nil_append, hs]
  dsimp only
  simp only [List.nil_append, List.map_cons, List.map_nil, dropEmpties_cons,
    dropEmpties_nil]
  rw [pyStrip_idem, if_neg hne]

/-- Witness for C10: re-splitting the first statement of `"a; b;c"`. -/
theorem claim_C10_witness : splitCore "a".data = [("a".data : List Char)] :=
  claim_C10 "a; b;c".data "a".data (by decide)

/-- The rejoin of C4: concatenate the statements separated by `;` and append a
trailing `;`. -/
def rejoinSemis : List (List Char) → List Char
  | [] => [';']
  | [s] => s ++ [';']
  | s :: s₂ :: rest => s ++ ';' :: rejoinSemis (s₂ :: rest)

lemma scanRun_semi_cons (R buf : List Char) (f : Nat) (hf : R.length ≤ f) :
    scanRun (f + 1) (';' :: R) initSt buf
      = (buf :: (scanRun R.length R initSt []).1,
         (scanRun R.length R initSt []).2.1, (scanRun R.length R initSt []).2.2) := by
  have hfl : (step initSt ';' R).flush = true := by rw [step_semi]
  rw [scanRun_cons_flush f buf hfl, step_semi]
  show (buf :: (scanRun f (R.drop 0) initSt []).1, (scanRun f (R.drop 0) initSt []).2.1,
        (scanRun f (R.drop 0) initSt []).2.2) = _
  rw [List.drop_zero, scanRun_fuel f R.length R initSt [] hf (le_refl _)]

/-- Scanning the rejoined text of statements that each scan alone back to the
initial state: each `;` junction is safe, so the scan flushes exactly the
original statements. -/
lemma rejoin_scan : ∀ (stmts : List (List Char)), stmts ≠ [] →
    (∀ s ∈ stmts, scanRun s.length s initSt [] = ([], s, initSt)) →
    scanRun (rejoinSemis stmts).length (rejoinSemis stmts) initSt []
      = (stmts, [], initSt) := by
  intro stmts
  induction stmts with
  | nil => intro h _; exact absurd rfl h
  | cons s rest ih =>
      intro _ hall
      have hsS := hall s (List.mem_cons_self s rest)
      cases rest with
      | nil =>
          show scanRun (s ++ [';']).length (s ++ [';']) initSt [] = ([s], [], initSt)
          rw [scanRun_append (s ++ [';']).length s [';'] initSt [] (by simp)
            (Or.inr ⟨';', rfl, junctionSafe_semi⟩), hsS]
          simp only [runThen]
          rw [show (([';'] : List Char)).length = 0 + 1 from rfl,
            scanRun_semi_cons [] s 0 (le_refl _), scanRun_nil]
          rfl
      | cons s₂ rest₂ =>
          have hR := ih (by simp) (fun x hx => hall x (List.mem_cons_of_mem s hx))
          show scanRun (s ++ ';' :: rejoinSemis (s₂ :: rest₂)).length
              (s ++ ';' :: rejoinSemis (s₂ :: rest₂)) initSt []
              = (s :: s₂ :: rest₂, [], initSt)
          rw [scanRun_append _ s (';' :: rejoinSemis (s₂ :: rest₂)) initSt []
            (by simp) (Or.inr ⟨';', rfl, junctionSafe_semi⟩), hsS]
          simp only [runThen]
          rw [List.length_cons,
            scanRun_semi_cons (rejoinSemis (s₂ :: rest₂)) s _ (le_refl _), hR]
          rfl

/-- C4 fails as stated: for the script `-- c` (an unterminated line comment),
the splitter returns the one statement `-- c`; rejoining with `;` gives
`-- c;`, which re-splits to the different one statement `-- c;` — the
appended semicolon lands inside the line comment. -/
theorem claim_C4_cex :
    ¬ splitCore (rejoinSemis (splitCore "-- c".data)) = splitCore "-- c".data := by
  decide

/-- C4 (amended): if every output statement's own scan ends back in the
initial `Normal` state (no unterminated string, comment, or dollar-quote),
then splitting the statements rejoined with `;` plus a trailing `;` yields
the same statement sequence. -/
theorem claim_C4 (cs : List Char)
    (hend : ∀ s ∈ splitCore cs, scanRun s.length s initSt [] = ([], s, initSt)) :
    splitCore (rejoinSemis (splitCore cs)) = splitCore cs := by
  cases hsc : splitCore cs with
  | nil => decide
  | cons s rest =>
      have hfacts : ∀ x ∈ s :: rest, pyStrip x = x ∧ x ≠ [] := by
        intro x hx
        rw [← hsc] at hx
        obtain ⟨ch, rfl, hne, -⟩ := splitCore_statements hx
        exact ⟨pyStrip_idem ch, hne⟩
      have hscan := rejoin_scan (s :: rest) (by simp) (fun x hx => hend x (hsc ▸ hx))
      rw [splitCore, pyLoop_scanRun _ _ _ _ _ (le_refl _), List.nil_append, hscan]
      dsimp only
      rw [List.map_append]
      rw [dropEmpties_append]
      have hmap : (s :: rest).map pyStrip = s :: rest := by
        rw [List.map_congr_left (fun x hx => (hfacts x hx).1), List.map_id']
      rw [hmap, dropEmpties_of_ne _ (fun x hx => (hfacts x hx).2)]
      have hnil : pyStrip ([] : List Char) = [] := rfl
      simp [dropEmpties_cons, hnil]

/-- Witness for C4 (amended) on the script `"a;b"`, whose statements all end
their scans in the initial state. -/
theorem claim_C4_witness :
    splitCore (rejoinSemis (splitCore "a;b".data)) = splitCore "a;b".data :=
  claim_C4 "a;b".data (by decide)

end SqlSplit
